import Mathlib

/-!
Shallow embedding of `scripts/generate-auth-client.mjs`, a minimal
OpenAPI -> plain JS fetch-client generator, together with proofs about the
claims of the specification.

The JavaScript source is translated function by function:

* `toSafeName`      (line 54)  — identifier sanitizer, three chained regex
  replaces modelled as three list-of-characters passes;
* `opFunctionName`  (line 58)  — function-name derivation;
* `paramList`       (line 70)  — name collection plus `Set`-based dedup;
* `buildPathTemplate` (line 79) — placeholder rewriting;
* `pickTags`        (line 84)  — tag defaulting;
* `genApiModule`    (line 153) — per-tag module rendering (returns `Option`
  because `tag[0].toUpperCase()` throws a TypeError on the empty tag);
* `groupOperationsByTag` (line 198) — the operation indexer, with the JS
  `Map` modelled as an association list with `Map.set` insertion semantics;
* `fetchJson`       (line 25)  — the spec loader, modelled over an abstract
  list of network events (the outcome of `JSON.parse` on a response body is
  modelled as `Option OpenApiDoc`, since `JSON.parse` is a platform builtin);
* `main`            (line 217) — the orchestrator, modelled as the ordered
  trace of directory-creation and file-write events it performs.

JS strings are modelled as Lean strings (one `Char` per code unit; the
claims under study never distinguish astral code points), and JS
`toUpperCase`/`toLowerCase` on tags as the ASCII simple mappings
`Char.toUpper`/`Char.toLower` — no claim depends on non-ASCII case mapping.
-/

/-- The character `\x7b` (opening curly brace). -/
def lbrace : Char := Char.ofNat 0x7b

/-- The character `\x7d` (closing curly brace). -/
def rbrace : Char := Char.ofNat 0x7d

/-- Character class `[A-Za-z0-9_]` of the sanitizer's regexes. -/
def isSafeChar (c : Char) : Bool :=
  ('a' ≤ c && c ≤ 'z') || ('A' ≤ c && c ≤ 'Z') || ('0' ≤ c && c ≤ '9') || c = '_'

/-- ASCII letter, used to state what a legal identifier head is. -/
def isAsciiLetter (c : Char) : Bool :=
  ('a' ≤ c && c ≤ 'z') || ('A' ≤ c && c ≤ 'Z')

/-- Line terminators that `.` does not match in a JS regex. -/
def isLineTerm (c : Char) : Bool :=
  c = '\n' || c = '\r' || c = Char.ofNat 0x2028 || c = Char.ofNat 0x2029

/-- First replace of `toSafeName`: `.replace(/[^a-zA-Z0-9_]+/g, '_')`.
The Boolean flag records whether the previous character belonged to an
unsafe run that has already been replaced by one underscore. -/
def squashAux : Bool → List Char → List Char
  | _, [] => []
  | prevUnsafe, c :: cs =>
    if isSafeChar c then c :: squashAux false cs
    else if prevUnsafe then squashAux true cs
    else '_' :: squashAux true cs

/-- Replace every maximal run of characters outside `[A-Za-z0-9_]` by `_`. -/
def squashUnsafe (l : List Char) : List Char :=
  squashAux false l

/-- Trailing half of `.replace(/^_+|_+$/g, '')`. -/
def dropTrailingUnd (l : List Char) : List Char :=
  (l.reverse.dropWhile (fun c => c = '_')).reverse

/-- Second replace of `toSafeName`: strip leading and trailing underscores. -/
def stripEdgeUnd (l : List Char) : List Char :=
  dropTrailingUnd (l.dropWhile (fun c => c = '_'))

/-- Third replace of `toSafeName`: `.replace(/_\x7b2,\x7d/g, '_')`.  The flag
records whether the previous emitted position is inside an underscore run. -/
def collapseAux : Bool → List Char → List Char
  | _, [] => []
  | prevUnd, c :: cs =>
    if c = '_' then
      if prevUnd then collapseAux true cs else '_' :: collapseAux true cs
    else c :: collapseAux false cs

/-- Collapse every run of two or more underscores to a single one. -/
def collapseUnd (l : List Char) : List Char :=
  collapseAux false l

/-- The three passes of `toSafeName` on the character list. -/
def toSafeNameList (l : List Char) : List Char :=
  collapseUnd (stripEdgeUnd (squashUnsafe l))

/-- Line 54: `toSafeName(str)` — the identifier sanitizer (the spec's
`toIdentifier`). -/
def toSafeName (s : String) : String :=
  String.mk (toSafeNameList s.data)

/-- Scan for the closing brace of a lazy `\x7b.*?\x7d` regex match: returns
the characters strictly before the first `\x7d` and the remainder after it,
failing when a line terminator (which `.` does not match) or the end of the
string comes first. -/
def findCloseBrace : List Char → Option (List Char × List Char)
  | [] => none
  | c :: cs =>
    if c = rbrace then some ([], cs)
    else if isLineTerm c then none
    else
      match findCloseBrace cs with
      | some (inner, rest) => some (c :: inner, rest)
      | none => none

/-- Delete every lazy `\x7b.*?\x7d` match, as in
`s.replace(/\x7b.*?\x7d/g, '')` of line 63: at each opening brace that has
a closing brace on the same line, everything through that closing brace is
dropped; an opening brace with no such close is kept and scanning resumes
after it.  The fuel argument only serves structural recursion; by
`findCloseBrace_length` the remainder handed to a recursive call is always
shorter, so fuel `l.length` never runs out. -/
def stripBracesFuel : Nat → List Char → List Char
  | 0, _ => []
  | _ + 1, [] => []
  | fuel + 1, c :: cs =>
    if c = lbrace then
      match findCloseBrace cs with
      | some (_, rest) => stripBracesFuel fuel rest
      | none => lbrace :: stripBracesFuel fuel cs
    else c :: stripBracesFuel fuel cs

/-- Regex-delete of placeholders on a character list. -/
def stripBracesList (l : List Char) : List Char :=
  stripBracesFuel l.length l

/-- String wrapper of `stripBracesList`. -/
def stripBraces (s : String) : String :=
  String.mk (stripBracesList s.data)

/-- Array.prototype.join: `list.join(sep)`. -/
def joinSep (sep : String) : List String → String
  | [] => ""
  | [s] => s
  | s :: rest => s ++ sep ++ joinSep sep rest

/-- String.prototype.split with a one-character separator; `acc` holds the
current segment reversed. -/
def splitOnCharAux (sep : Char) : List Char → List Char → List String
  | acc, [] => [String.mk acc.reverse]
  | acc, c :: cs =>
    if c = sep then String.mk acc.reverse :: splitOnCharAux sep [] cs
    else splitOnCharAux sep (c :: acc) cs

/-- `s.split(sep)` for a one-character separator, e.g. `pathKey.split('/')`:
empty segments are kept (`''.split('/')` is `['']`). -/
def splitOnChar (sep : Char) (s : String) : List String :=
  splitOnCharAux sep [] s.data

/-- String.prototype.toLowerCase, as the ASCII simple mapping. -/
def jsToLower (s : String) : String :=
  String.mk (s.data.map Char.toLower)

/-- String.prototype.toUpperCase, as the ASCII simple mapping. -/
def jsToUpper (s : String) : String :=
  String.mk (s.data.map Char.toUpper)

/-- The `tags` field of an operation as found in the JSON document: absent,
present but not an array (so that `Array.isArray` is false), or an array of
strings. -/
inductive TagsField where
  | absent
  | notArray
  | arr (ts : List String)
deriving DecidableEq

/-- One entry of an operation's `parameters` array; `loc` models the
parameter's `in` field.  Absent fields are `none`; a JS-falsy `name` is
`none` or `some ""`. -/
structure Param where
  name : Option String
  loc : Option String
deriving DecidableEq

/-- The operation fields the generator reads.  `requestBody` records the
truthiness of the `requestBody` field (line 170: `!!op.requestBody`). -/
structure Operation where
  operationId : Option String
  tags : TagsField
  summary : Option String
  parameters : Option (List Param)
  requestBody : Bool
deriving DecidableEq

/-- The root document; `paths` is `none` when the field is absent (read as
`openapi.paths || \x7b\x7d` at line 200).  Path items are ordered key-value
lists, mirroring `Object.entries`/`Object.keys` traversal order. -/
structure OpenApiDoc where
  paths : Option (List (String × List (String × Operation)))
deriving DecidableEq

/-- Path-derived branch of `opFunctionName` (lines 60-67): split the path on
`/`, drop falsy segments, delete `\x7b...\x7d` placeholders, drop segments
left falsy, join with `_`, prefix the method (`root` when nothing is left),
and sanitize. -/
def opFunctionNameFromPath (pathKey method : String) : String :=
  let fromPath :=
    joinSep "_" ((((splitOnChar '/' pathKey).filter (fun s => s != "")).map
      stripBraces).filter (fun s => s != ""))
  toSafeName (method ++ "_" ++ (if fromPath = "" then "root" else fromPath))

/-- Line 58: `opFunctionName(op, pathKey, method)`.  The `operationId` is
used only when truthy (present and non-empty). -/
def opFunctionName (op : Operation) (pathKey method : String) : String :=
  match op.operationId with
  | some s => if s = "" then opFunctionNameFromPath pathKey method else toSafeName s
  | none => opFunctionNameFromPath pathKey method

/-- Names collected by the loop of lines 71-75: parameters whose `name` is
falsy (absent or empty) are skipped, in order.  (A falsy parameter itself is
also skipped by the `!p` guard; parameter entries are modelled as records,
a `null` entry would already fault in the caller's `p.in` filter.) -/
def collectNames (params : List Param) : List String :=
  params.filterMap (fun p =>
    match p.name with
    | none => none
    | some s => if s = "" then none else some s)

/-- `Array.from(new Set(names))` (line 76): deduplicate keeping the first
occurrence of each name, preserving order; `seen` holds names already
kept. -/
def dedupFirstAux (seen : List String) : List String → List String
  | [] => []
  | x :: xs =>
    if x ∈ seen then dedupFirstAux seen xs else x :: dedupFirstAux (x :: seen) xs

/-- Order-preserving first-occurrence deduplication. -/
def dedupFirst (l : List String) : List String :=
  dedupFirstAux [] l

/-- Line 70: `paramList(params)`. -/
def paramList (params : List Param) : List String :=
  dedupFirst (collectNames params)

/-- Character-list version of line 79: replace every lazy `\x7b(.*?)\x7d`
match by `${pathParams.<inner>}`.  Fuel as in `stripBracesFuel`. -/
def buildPathTemplateFuel : Nat → List Char → List Char
  | 0, _ => []
  | _ + 1, [] => []
  | fuel + 1, c :: cs =>
    if c = lbrace then
      match findCloseBrace cs with
      | some (inner, rest) =>
        '$' :: lbrace ::
          ("pathParams.".data ++ inner ++ rbrace :: buildPathTemplateFuel fuel rest)
      | none => lbrace :: buildPathTemplateFuel fuel cs
    else c :: buildPathTemplateFuel fuel cs

/-- Line 79: `buildPathTemplate(pathKey)`. -/
def buildPathTemplate (s : String) : String :=
  String.mk (buildPathTemplateFuel s.data.length s.data)

/-- Line 84: `pickTags(op)` — the declared tags when `op.tags` is an array
of nonzero length, otherwise `['default']`. -/
def pickTags (op : Operation) : List String :=
  match op.tags with
  | .arr (t :: ts) => t :: ts
  | _ => ["default"]

/-- The method keys recognized by the indexer (line 203). -/
def httpMethods : List String :=
  ["get", "post", "put", "patch", "delete", "options", "head"]

/-- Line 207: the record `{...op, method, pathKey, fnName}`. -/
structure IndexedOp where
  op : Operation
  method : String
  pathKey : String
  fnName : String
deriving DecidableEq

/-- Build the indexed record for one visited `(pathKey, method, op)`; the
function name is computed once here, before the tag fan-out. -/
def mkEntry (pathKey method : String) (op : Operation) : IndexedOp :=
  ⟨op, method, pathKey, opFunctionName op pathKey method⟩

/-- `Map.set`-style insertion of lines 209-210: append `e` to the bucket of
`tag`, creating the bucket at the end when absent (a JS `Map` iterates keys
in insertion order). -/
def addToTag : List (String × List IndexedOp) → String → IndexedOp →
    List (String × List IndexedOp)
  | [], tag, e => [(tag, [e])]
  | (k, v) :: rest, tag, e =>
    if k = tag then (k, v ++ [e]) :: rest else (k, v) :: addToTag rest tag e

/-- `byTag.get(tag)` — first-match association-list lookup (keys of a JS
`Map` are unique), with a missing key read as the empty bucket. -/
def bucketOf : List (String × List IndexedOp) → String → List IndexedOp
  | [], _ => []
  | kv :: rest, tag => if kv.1 = tag then kv.2 else bucketOf rest tag

/-- The per-operation step of lines 204-211: append one identical indexed
record to every bucket named by the operation's tags. -/
def addOp (acc : List (String × List IndexedOp)) (pathKey method : String)
    (op : Operation) : List (String × List IndexedOp) :=
  (pickTags op).foldl (fun a t => addToTag a t (mkEntry pathKey method op)) acc

/-- Line 198: `groupOperationsByTag(openapi)`.  The nested loops over
`Object.entries(openapi.paths || \x7b\x7d)` and `Object.keys(item)` become
nested folds; keys that are not recognized HTTP methods are skipped. -/
def groupOperationsByTag (openapi : OpenApiDoc) : List (String × List IndexedOp) :=
  (openapi.paths.getD []).foldl
    (fun acc pi =>
      pi.2.foldl
        (fun acc2 mo =>
          if mo.1 ∈ httpMethods then addOp acc2 pi.1 mo.1 mo.2 else acc2)
        acc)
    []

/-- The `(pathKey, method, operation)` triples visited by the indexer, in
traversal order. -/
def opsOfDoc (openapi : OpenApiDoc) : List (String × String × Operation) :=
  (openapi.paths.getD []).flatMap (fun pi =>
    (pi.2.filter (fun mo => decide (mo.1 ∈ httpMethods))).map
      (fun mo => (pi.1, mo.1, mo.2)))

/-- Class-name derivation of line 158:
`toSafeName(tag[0].toUpperCase() + tag.slice(1))`; for the empty tag,
`tag[0]` is `undefined` and `.toUpperCase()` throws a TypeError, modelled
as `none`. -/
def moduleClassName (tag : String) : Option String :=
  match tag.data with
  | [] => none
  | c :: rest => some (toSafeName (String.mk (c.toUpper :: rest)))

/-- The same class-name derivation, recomputed by the orchestrator at line
234 for the barrel file's export records. -/
def barrelClassName (tag : String) : Option String :=
  match tag.data with
  | [] => none
  | c :: rest => some (toSafeName (String.mk (c.toUpper :: rest)))

/-- Line 231: the generated module filename for a tag. -/
def emissionFileName (tag : String) : String :=
  toSafeName (jsToLower tag) ++ "-api.js"

/-- Parameters of an operation in a given location (lines 167-169):
`(op.parameters || []).filter((p) => p.in === loc)`. -/
def paramsIn (op : Operation) (l : String) : List Param :=
  (op.parameters.getD []).filter (fun p => p.loc == some l)

/-- The positional, conditional argument list of lines 172-176: `pathParams`,
`query`, `headers`, `body`, each present only when its bucket is nonempty
(for `body`, when `requestBody` is truthy). -/
def opArgs (op : Operation) : List String :=
  (if paramList (paramsIn op "path") ≠ [] then ["pathParams"] else []) ++
  (if paramList (paramsIn op "query") ≠ [] then ["query"] else []) ++
  (if paramList (paramsIn op "header") ≠ [] then ["headers"] else []) ++
  (if op.requestBody then ["body"] else [])

/-- Lines 163-190: the source lines emitted for one operation's method. -/
def opMethodLines (e : IndexedOp) : List String :=
  ["  /**",
   "   * " ++ e.op.summary.getD "",
   "   * " ++ jsToUpper e.method ++ " " ++ e.pathKey,
   "   */",
   "  async " ++ e.fnName ++ "(" ++ joinSep ", " (opArgs e.op) ++ ") \x7b",
   "    return this.http.request(\x7b",
   "      path: \x60" ++ buildPathTemplate e.pathKey ++ "\x60,",
   "      method: \x27" ++ jsToUpper e.method ++ "\x27,"] ++
  (if paramList (paramsIn e.op "query") ≠ [] then ["      query: query,"] else []) ++
  (if paramList (paramsIn e.op "header") ≠ [] then ["      headers: headers,"] else []) ++
  (if e.op.requestBody then ["      body: body,"] else []) ++
  ["    \x7d);",
   "  \x7d"]

/-- Line 153: `genApiModule(tag, operations)`; `none` models the TypeError
thrown at line 158 when `tag` is the empty string. -/
def genApiModule (tag : String) (operations : List IndexedOp) : Option String :=
  match moduleClassName tag with
  | none => none
  | some className =>
    some (joinSep "\n"
      (["// Auto-generated API for tag: " ++ tag,
        "import \x7b AuthHttpClient \x7d from \x27./base.js\x27;",
        "",
        "export class " ++ className ++ "Api \x7b",
        "  /** @param \x7bAuthHttpClient\x7d http */",
        "  constructor(http) \x7b this.http = http; \x7d"] ++
       operations.flatMap opMethodLines ++
       ["\x7d", "", "export default " ++ className ++ "Api;"]))

/-- The `exports` records accumulated by the orchestrator loop (lines
229-236): for each tag of the grouping, its generated filename and class
name — the EmissionPlan of the specification. -/
def emissionPlan (openapi : OpenApiDoc) : List (String × String × Option String) :=
  (groupOperationsByTag openapi).map
    (fun kv => (kv.1, emissionFileName kv.1, barrelClassName kv.1))

/-- JS truthiness of an optional string (used for `res.headers.location`). -/
def isTruthyStr : Option String → Bool
  | none => false
  | some s => s != ""

/-- One network interaction of the spec loader: the request either errored
at the transport level or produced a response.  The response body is
carried as the outcome of `JSON.parse` on the collected text (modelled
as `Option`, since `JSON.parse` is a platform builtin, not repository
code). -/
inductive NetEvent where
  | transportError
  | response (statusCode : Nat) (location : Option String) (body : Option OpenApiDoc)
deriving DecidableEq

/-- The failure taxonomy of the spec loader (spec section 7). -/
inductive FetchError where
  | fetchFailure
  | httpStatus (code : Nat)
  | parseFailure
deriving DecidableEq

/-- Lines 25-52: `fetchJson(url)`, over the successive network events of its
redirect chain.  A 3xx response with a truthy `Location` header re-issues
the request against the next event; a status of at least 400 rejects with
that status; an unparsable body rejects with the parse failure; a transport
error (or an exhausted event list) rejects with the fetch failure. -/
def fetchJson : List NetEvent → Except FetchError OpenApiDoc
  | [] => .error .fetchFailure
  | .transportError :: _ => .error .fetchFailure
  | .response status loc body :: rest =>
    if 300 ≤ status ∧ status < 400 ∧ isTruthyStr loc = true then fetchJson rest
    else if 400 ≤ status then .error (.httpStatus status)
    else
      match body with
      | some d => .ok d
      | none => .error .parseFailure

/-- A filesystem effect of the orchestrator. -/
inductive FsEvent where
  | mkdirOut
  | writeOut (name : String)
deriving DecidableEq

/-- Lines 217-246: the orchestrator `main`, abstracted to the ordered list
of filesystem effects it performs and the failure it terminates with, if
any.  The spec is fetched first; only on success is the output directory
created and `base.js`, each tag module, and `index.js` written. -/
def runMain (net : List NetEvent) : List FsEvent × Option FetchError :=
  match fetchJson net with
  | .error e => ([], some e)
  | .ok spec =>
    (FsEvent.mkdirOut :: FsEvent.writeOut "base.js" ::
      ((groupOperationsByTag spec).map (fun kv => FsEvent.writeOut (emissionFileName kv.1)) ++
       [FsEvent.writeOut "index.js"]),
     none)

/-- The path-derivation algorithm exactly as the specification words it
(spec 4.2): split on `/`, drop empty segments, strip placeholders from each
segment, drop segments left empty, join survivors with `_`, prefix the
method (with the literal word `root` when no segment survives), then
sanitize. -/
def specDerivedName (pathKey method : String) : String :=
  let segments := (splitOnChar '/' pathKey).filter (fun s => s != "")
  let survivors := (segments.map stripBraces).filter (fun s => s != "")
  if survivors = [] then toSafeName (method ++ "_" ++ "root")
  else toSafeName (method ++ "_" ++ joinSep "_" survivors)

/-- A string usable as a generated method name: nonempty, made of
`[A-Za-z0-9_]` only, and not starting with a digit. -/
def isValidIdentifier (s : String) : Bool :=
  match s.data with
  | [] => false
  | c :: cs => (isAsciiLetter c || c == '_') && (c :: cs).all isSafeChar

/-- No two adjacent underscores anywhere in the list. -/
def noDoubleUnd : List Char → Bool
  | [] => true
  | [_] => true
  | a :: b :: rest => !(a == '_' && b == '_') && noDoubleUnd (b :: rest)

theorem findCloseBrace_length :
    ∀ cs inner rest, findCloseBrace cs = some (inner, rest) →
      rest.length < cs.length := by
  intro cs
  induction cs with
  | nil => intro inner rest h; simp [findCloseBrace] at h
  | cons c cs ih =>
    intro inner rest h
    rw [findCloseBrace] at h
    split at h
    · injection h with h'
      injection h' with h1 h2
      rw [← h2]
      simp
    · split at h
      · simp at h
      · split at h
        · rename_i inner' rest' hfc
          injection h with h'
          injection h' with h1 h2
          rw [← h2]
          exact Nat.lt_succ_of_lt (ih inner' rest' hfc)
        · simp at h

example : toSafeName "get_users_orders" = "get_users_orders" := by decide
example : toSafeName "-" = "" := by decide
example : toSafeName "_a__b-c_" = "a_b_c" := by decide
example : stripBraces "users\x7bid\x7dx" = "usersx" := by decide
example : joinSep "_" ["users", "orders"] = "users_orders" := by decide

example :
    opFunctionName ⟨none, .absent, none, none, false⟩
      "/users/\x7bid\x7d/orders/\x7borderId\x7d" "get" = "get_users_orders" := by
  decide

example : opFunctionName ⟨some "-", .absent, none, none, false⟩ "/a" "get" = "" := by
  decide

example : opFunctionName ⟨none, .absent, none, none, false⟩ "/" "get" = "get_root" := by
  decide

example : emissionFileName "Users" = "users-api.js" := by decide
example : barrelClassName "users" = some "Users" := by decide
example : barrelClassName "" = none := by decide
example : buildPathTemplate "/users/\x7bid\x7d" = "/users/$\x7bpathParams.id\x7d" := by
  decide

example :
    fetchJson [.response 503 none none] = .error (.httpStatus 503) := rfl

example :
    opArgs ⟨none, .absent, none,
      some [⟨some "page", some "query"⟩, ⟨some "page", some "header"⟩], false⟩ =
    ["query", "headers"] := by decide

example :
    bucketOf (groupOperationsByTag ⟨some [("/a", [("get",
      ⟨none, .arr ["a", "b"], none, none, false⟩)])]⟩) "b" =
    [⟨⟨none, .arr ["a", "b"], none, none, false⟩, "get", "/a", "get_a"⟩] := by
  decide

theorem isSafeChar_und : isSafeChar '_' = true := by decide

theorem squashAux_all_safe (l : List Char) :
    ∀ b, (squashAux b l).all isSafeChar = true := by
  induction l with
  | nil => intro b; rfl
  | cons c cs ih =>
    intro b
    rw [squashAux]
    by_cases hc : isSafeChar c = true
    · simp [hc, ih false]
    · cases b
      · simp only [hc, if_false, Bool.false_eq_true, List.all_cons, Bool.and_eq_true]
        exact ⟨isSafeChar_und, ih true⟩
      · simp only [hc, if_false, if_true, Bool.false_eq_true]
        exact ih true

theorem dropWhileUnd_head (l : List Char) :
    (l.dropWhile (fun c => c = '_')).head? ≠ some '_' := by
  induction l with
  | nil => simp
  | cons a as ih =>
    rw [List.dropWhile_cons]
    by_cases ha : a = '_'
    · simpa [ha] using ih
    · simp [ha]

theorem dropTrailingUnd_nil : dropTrailingUnd [] = [] := rfl

theorem dropTrailingUnd_cons (c : Char) (hc : c ≠ '_') (l : List Char) :
    dropTrailingUnd (c :: l) = c :: dropTrailingUnd l := by
  unfold dropTrailingUnd
  rw [show (c :: l).reverse = l.reverse ++ [c] by simp, List.dropWhile_append]
  by_cases h : (List.dropWhile (fun c => c = '_') l.reverse).isEmpty = true
  · simp only [h, if_true]
    have : List.dropWhile (fun c => c = '_') [c] = [c] := by
      simp [List.dropWhile_cons, hc]
    rw [this]
    rw [List.isEmpty_iff] at h
    simp [h]
  · simp only [h, if_false]
    simp

theorem dropTrailingUnd_getLast (l : List Char) :
    (dropTrailingUnd l).getLast? ≠ some '_' := by
  unfold dropTrailingUnd
  rw [List.getLast?_reverse]
  exact dropWhileUnd_head l.reverse

theorem dropTrailingUnd_head (l : List Char) (h : l.head? ≠ some '_') :
    (dropTrailingUnd l).head? ≠ some '_' := by
  cases l with
  | nil => simp [dropTrailingUnd_nil]
  | cons c cs =>
    simp only [List.head?_cons, ne_eq, Option.some.injEq] at h
    rw [dropTrailingUnd_cons c h]
    simp [h]

theorem dropTrailingUnd_subset (l : List Char) : dropTrailingUnd l ⊆ l := by
  intro x hx
  unfold dropTrailingUnd at hx
  rw [List.mem_reverse] at hx
  have := (List.dropWhile_sublist (l := l.reverse) (fun c => c = '_')).subset hx
  rwa [List.mem_reverse] at this

theorem stripEdgeUnd_all_safe (l : List Char) (h : l.all isSafeChar = true) :
    (stripEdgeUnd l).all isSafeChar = true := by
  rw [List.all_eq_true] at h ⊢
  intro x hx
  unfold stripEdgeUnd at hx
  have hx2 := dropTrailingUnd_subset _ hx
  exact h x ((List.dropWhile_sublist _).subset hx2)

theorem stripEdgeUnd_head (l : List Char) : (stripEdgeUnd l).head? ≠ some '_' := by
  unfold stripEdgeUnd
  exact dropTrailingUnd_head _ (dropWhileUnd_head l)

theorem stripEdgeUnd_getLast (l : List Char) :
    (stripEdgeUnd l).getLast? ≠ some '_' := by
  unfold stripEdgeUnd
  exact dropTrailingUnd_getLast _

theorem collapseAux_true_head (l : List Char) :
    (collapseAux true l).head? ≠ some '_' := by
  induction l with
  | nil => simp [collapseAux]
  | cons c cs ih =>
    rw [collapseAux]
    by_cases hc : c = '_'
    · simp only [hc, if_true]
      exact ih
    · simp [hc]

theorem collapseAux_false_cons (c : Char) (hc : c ≠ '_') (l : List Char) :
    collapseAux false (c :: l) = c :: collapseAux false l := by
  rw [collapseAux]
  simp [hc]

theorem collapseAux_noDouble (l : List Char) :
    ∀ b, noDoubleUnd (collapseAux b l) = true := by
  induction l with
  | nil => intro b; rfl
  | cons c cs ih =>
    intro b
    rw [collapseAux]
    by_cases hc : c = '_'
    · cases b
      · simp only [hc, if_true, if_false, Bool.false_eq_true]
        rcases h : collapseAux true cs with _ | ⟨x, xs⟩
        · rfl
        · have hx : x ≠ '_' := by
            have := collapseAux_true_head cs
            rw [h] at this
            simpa using this
          rw [noDoubleUnd]
          have := ih true
          rw [h] at this
          simp [hx, this]
      · simp only [hc, if_true]
        exact ih true
    · simp only [hc, if_false]
      rcases h : collapseAux false cs with _ | ⟨x, xs⟩
      · rfl
      · rw [noDoubleUnd]
        have := ih false
        rw [h] at this
        simp [hc, this]

theorem collapseAux_all_safe (l : List Char) (h : l.all isSafeChar = true) :
    ∀ b, (collapseAux b l).all isSafeChar = true := by
  induction l with
  | nil => intro b; rfl
  | cons c cs ih =>
    intro b
    rw [List.all_cons, Bool.and_eq_true] at h
    rw [collapseAux]
    by_cases hc : c = '_'
    · cases b
      · simp only [hc, if_true, if_false, Bool.false_eq_true, List.all_cons,
          Bool.and_eq_true]
        exact ⟨isSafeChar_und, ih h.2 true⟩
      · simp only [hc, if_true]
        exact ih h.2 true
    · simp only [hc, if_false, List.all_cons, Bool.and_eq_true]
      exact ⟨h.1, ih h.2 false⟩

theorem collapseAux_ne_nil_getLast (l : List Char) :
    ∀ b, l ≠ [] → l.getLast? ≠ some '_' →
      collapseAux b l ≠ [] ∧ (collapseAux b l).getLast? ≠ some '_' := by
  induction l with
  | nil => intro b h; exact absurd rfl h
  | cons c cs ih =>
    intro b _ hlast
    cases cs with
    | nil =>
      have hc : c ≠ '_' := by simpa using hlast
      rw [collapseAux]
      simp only [hc, if_false]
      constructor
      · simp
      · simp [collapseAux, hc]
    | cons d ds =>
      rw [List.getLast?_cons_cons] at hlast
      have ihd := ih (b := true) (by simp) hlast
      have ihd' := ih (b := false) (by simp) hlast
      rw [collapseAux]
      by_cases hc : c = '_'
      · cases b
        · simp only [hc, if_true, if_false, Bool.false_eq_true]
          refine ⟨by simp, ?_⟩
          rcases h : collapseAux true (d :: ds) with _ | ⟨x, xs⟩
          · exact absurd h ihd.1
          · rw [List.getLast?_cons_cons]
            rw [h] at ihd
            exact ihd.2
        · simp only [hc, if_true]
          exact ihd
      · simp only [hc, if_false]
        refine ⟨by simp, ?_⟩
        rcases h : collapseAux false (d :: ds) with _ | ⟨x, xs⟩
        · exact absurd h ihd'.1
        · rw [List.getLast?_cons_cons]
          rw [h] at ihd'
          exact ihd'.2

theorem collapseAux_getLast (l : List Char) (b : Bool)
    (h : l.getLast? ≠ some '_') : (collapseAux b l).getLast? ≠ some '_' := by
  cases l with
  | nil => simp [collapseAux]
  | cons c cs => exact (collapseAux_ne_nil_getLast (c :: cs) b (by simp) h).2

theorem collapseAux_head (l : List Char) (h : l.head? ≠ some '_') :
    (collapseAux false l).head? = l.head? := by
  cases l with
  | nil => rfl
  | cons c cs =>
    simp only [List.head?_cons, ne_eq, Option.some.injEq] at h
    rw [collapseAux_false_cons c h]
    simp

/-- The full shape invariant of the sanitizer's output: every character in
`[A-Za-z0-9_]`, no leading or trailing underscore, no run of two or more
underscores. -/
theorem toSafeNameList_shape (l : List Char) :
    (toSafeNameList l).all isSafeChar = true ∧
    (toSafeNameList l).head? ≠ some '_' ∧
    (toSafeNameList l).getLast? ≠ some '_' ∧
    noDoubleUnd (toSafeNameList l) = true := by
  unfold toSafeNameList collapseUnd squashUnsafe
  refine ⟨?_, ?_, ?_, ?_⟩
  · exact collapseAux_all_safe _ (stripEdgeUnd_all_safe _ (squashAux_all_safe _ false)) false
  · rw [collapseAux_head _ (stripEdgeUnd_head _)]
    exact stripEdgeUnd_head _
  · exact collapseAux_getLast _ false (stripEdgeUnd_getLast _)
  · exact collapseAux_noDouble _ false

theorem append_und_ne_empty (s t : String) : s ++ "_" ++ t ≠ "" := by
  intro h
  have hd := congrArg String.data h
  rw [String.data_append, String.data_append] at hd
  have hu : "_".data = ['_'] := rfl
  rw [hu] at hd
  simp at hd

theorem joinSep_eq_empty_iff (l : List String) (h : ∀ s ∈ l, s ≠ "") :
    (joinSep "_" l = "" ↔ l = []) := by
  match l with
  | [] => simp [joinSep]
  | [s] =>
    simp only [joinSep, List.cons_ne_nil, iff_false]
    exact h s (by simp)
  | s :: t :: rest =>
    simp only [joinSep, List.cons_ne_nil, iff_false]
    exact append_und_ne_empty s (joinSep "_" (t :: rest))

theorem isValidIdentifier_mk (c : Char) (Z : List Char) :
    isValidIdentifier (String.mk (c :: Z)) =
      ((isAsciiLetter c || c == '_') && (c :: Z).all isSafeChar) := rfl

theorem toSafeNameList_cons_safe (c : Char) (hcs : isSafeChar c = true)
    (hcu : c ≠ '_') (rest : List Char) :
    toSafeNameList (c :: rest) =
      c :: collapseAux false (dropTrailingUnd (squashAux false rest)) := by
  unfold toSafeNameList squashUnsafe collapseUnd stripEdgeUnd
  rw [squashAux]
  simp only [hcs, if_true]
  rw [List.dropWhile_cons]
  simp only [hcu, decide_eq_true_eq, if_false]
  rw [dropTrailingUnd_cons c hcu]
  rw [collapseAux_false_cons c hcu]

theorem toSafeName_head_valid (s : String) (c : Char)
    (hdata : s.data.head? = some c) (hc : isAsciiLetter c = true) :
    isValidIdentifier (toSafeName s) = true := by
  have hcu : c ≠ '_' := by
    intro h
    rw [h] at hc
    exact absurd hc (by decide)
  have hcs : isSafeChar c = true := by
    unfold isAsciiLetter at hc
    unfold isSafeChar
    rcases Bool.or_eq_true_iff.mp hc with h | h <;> simp [h]
  rcases hd : s.data with _ | ⟨a, rest⟩
  · rw [hd] at hdata; simp at hdata
  · rw [hd] at hdata
    simp only [List.head?_cons, Option.some.injEq] at hdata
    subst hdata
    have hshape := toSafeNameList_shape s.data
    have hrw := toSafeNameList_cons_safe a hcs hcu rest
    rw [hd] at hshape
    unfold toSafeName
    rw [hd, hrw]
    rw [isValidIdentifier_mk]
    rw [hrw] at hshape
    simp only [hc, Bool.true_or, Bool.true_and]
    exact hshape.1

/-- C5: for every input string — including the empty string, arbitrary
Unicode, and strings of only characters outside `[A-Za-z0-9_]` — the
sanitizer `toSafeName` (the spec's `toIdentifier`, a total function, so it
never fails) returns a string containing no character outside
`[A-Za-z0-9_]`, with no leading or trailing underscore and no run of two or
more consecutive underscores. -/
theorem c5_sanitizer_shape (s : String) :
    (toSafeName s).data.all isSafeChar = true ∧
    (toSafeName s).data.head? ≠ some '_' ∧
    (toSafeName s).data.getLast? ≠ some '_' ∧
    noDoubleUnd (toSafeName s).data = true :=
  toSafeNameList_shape s.data

/-- C2 (amended): for every operation whose `operationId` is absent or
empty (the falsy cases, which take the path-derivation branch) and every
recognized HTTP method, `opFunctionName` returns a usable, syntactically
legal method name — nonempty, drawn from `[A-Za-z0-9_]`, and not starting
with a digit.  (With a truthy `operationId` the result is
`toSafeName(operationId)`, which can be empty — see the counterexample.) -/
theorem c2_function_name_amended (op : Operation) (pathKey method : String)
    (hid : op.operationId = none ∨ op.operationId = some "")
    (hm : method ∈ httpMethods) :
    isValidIdentifier (opFunctionName op pathKey method) = true := by
  have hred : opFunctionName op pathKey method = opFunctionNameFromPath pathKey method := by
    rcases hid with h | h <;> rw [opFunctionName, h]
    simp
  rw [hred, opFunctionNameFromPath]
  fin_cases hm
  · exact toSafeName_head_valid _ 'g' rfl (by decide)
  · exact toSafeName_head_valid _ 'p' rfl (by decide)
  · exact toSafeName_head_valid _ 'p' rfl (by decide)
  · exact toSafeName_head_valid _ 'p' rfl (by decide)
  · exact toSafeName_head_valid _ 'd' rfl (by decide)
  · exact toSafeName_head_valid _ 'o' rfl (by decide)
  · exact toSafeName_head_valid _ 'h' rfl (by decide)

/-- C2 counterexample: the operation with truthy `operationId` `"-"` gets
the function name `""` — not a nonempty legal identifier — refuting the
claim for arbitrary `operationId` strings. -/
theorem c2_counterexample :
    opFunctionName ⟨some "-", .absent, none, none, false⟩ "/a" "get" = "" ∧
    isValidIdentifier "" = false :=
  ⟨by decide, by decide⟩

theorem c2_function_name_amended_witness :
    isValidIdentifier (opFunctionName ⟨none, .absent, none, none, false⟩
      "/users/\x7bid\x7d/orders/\x7borderId\x7d" "get") = true :=
  c2_function_name_amended _ _ _ (Or.inl rfl) (by decide)

/-- C4: for every operation with falsy `operationId`, the function name is
the spec-worded pipeline — split the path on `/`, drop empty segments,
delete placeholder spans, drop segments left empty, join with `_`, prefix
the method (`root` when nothing survives), sanitize — and the worked
example `/users/\x7bid\x7d/orders/\x7borderId\x7d` with `get` yields
`get_users_orders`. -/
theorem c4_path_derivation :
    (∀ (op : Operation) (pathKey method : String),
        op.operationId = none ∨ op.operationId = some "" →
        opFunctionName op pathKey method = specDerivedName pathKey method) ∧
    opFunctionName ⟨none, .absent, none, none, false⟩
      "/users/\x7bid\x7d/orders/\x7borderId\x7d" "get" = "get_users_orders" := by
  constructor
  · intro op pathKey method hid
    have hred : opFunctionName op pathKey method = opFunctionNameFromPath pathKey method := by
      rcases hid with h | h <;> rw [opFunctionName, h]
      simp
    rw [hred]
    simp only [opFunctionNameFromPath, specDerivedName]
    set L := (((splitOnChar '/' pathKey).filter (fun s => s != "")).map
      stripBraces).filter (fun s => s != "") with hL
    have hne : ∀ s ∈ L, s ≠ "" := by
      intro s hs
      rw [hL] at hs
      have := (List.mem_filter.mp hs).2
      simpa using this
    by_cases hnil : L = []
    · rw [hnil]
      simp [joinSep]
    · have : joinSep "_" L ≠ "" := fun h => hnil ((joinSep_eq_empty_iff L hne).mp h)
      simp only [this, if_false, hnil]
  · decide

theorem c4_path_derivation_witness :
    opFunctionName ⟨none, .absent, none, none, false⟩ "/users/\x7bid\x7d" "get" =
      specDerivedName "/users/\x7bid\x7d" "get" :=
  c4_path_derivation.1 _ _ _ (Or.inl rfl)

/-- C3: if the spec download fails — transport error, HTTP status of at
least 400 (a 503 is reported as the status-carrying failure with status
503), or a body that is not valid JSON — the run terminates with that
failure and performs no filesystem effect: no output directory is created
and no file is written. -/
theorem c3_loader_failure_aborts :
    (∀ (net : List NetEvent) (e : FetchError),
        fetchJson net = .error e → runMain net = ([], some e)) ∧
    fetchJson [.response 503 none none] = .error (.httpStatus 503) := by
  constructor
  · intro net e h
    simp [runMain, h]
  · rfl

theorem c3_loader_failure_aborts_witness :
    runMain [.response 503 none none] = ([], some (.httpStatus 503)) :=
  c3_loader_failure_aborts.1 _ _ rfl

/-- C10: the per-tag module renderer is not total at its interface: for the
empty tag (reachable when an operation's tags array contains `""`), the
class-name derivation evaluates `tag[0].toUpperCase()` with `tag[0]`
undefined and the render fails; for every non-empty tag the derivation and
the render succeed. -/
theorem c10_render_partial :
    (∀ ops, genApiModule "" ops = none) ∧
    (∀ (tag : String) (ops : List IndexedOp), tag ≠ "" →
        (genApiModule tag ops).isSome = true) := by
  constructor
  · intro ops
    rfl
  · intro tag ops htag
    rcases hd : tag.data with _ | ⟨c, rest⟩
    · exact absurd (String.ext hd) htag
    · have h1 : moduleClassName tag = some (toSafeName (String.mk (c.toUpper :: rest))) := by
        rw [moduleClassName, hd]
      rw [genApiModule, h1]
      rfl

theorem c10_render_partial_witness :
    (genApiModule "users" []).isSome = true :=
  c10_render_partial.2 "users" [] (by decide)

/-- C1 (amended): the emission plan assigns every grouped tag the filename
`toSafeName(tag.toLowerCase()) + "-api.js"` and the class name computed by
the same derivation used inside the module (so the name recorded in the
barrel file always equals the class name declared in that tag's module);
but the assignment is not injective on arbitrary distinct tags — two tag
keys share a filename exactly when their sanitized lower-cased forms
coincide (see the counterexample), so bijectivity holds only for tag sets
whose sanitized forms are pairwise distinct. -/
theorem c1_emission_plan_amended :
    (∀ tag : String, barrelClassName tag = moduleClassName tag) ∧
    (∀ (doc : OpenApiDoc) (t f : String) (c : Option String),
        (t, f, c) ∈ emissionPlan doc →
        f = emissionFileName t ∧ c = moduleClassName t) ∧
    (∀ t1 t2 : String, emissionFileName t1 = emissionFileName t2 ↔
        toSafeName (jsToLower t1) = toSafeName (jsToLower t2)) := by
  refine ⟨fun tag => rfl, ?_, ?_⟩
  · intro doc t f c h
    rw [emissionPlan] at h
    rcases List.mem_map.mp h with ⟨kv, hkv, heq⟩
    rw [Prod.ext_iff] at heq
    rcases heq with ⟨h1, h23⟩
    rw [Prod.ext_iff] at h23
    rcases h23 with ⟨h2, h3⟩
    simp only at h1 h2 h3
    subst h1
    exact ⟨h2.symm, h3.symm⟩
  · intro t1 t2
    constructor
    · intro h
      rw [emissionFileName, emissionFileName] at h
      have hd := congrArg String.data h
      rw [String.data_append, String.data_append] at hd
      exact String.ext (List.append_cancel_right hd)
    · intro h
      rw [emissionFileName, emissionFileName, h]

/-- C1 counterexample: a document declaring the distinct tags `"Users"` and
`"users"` produces an emission plan whose two entries share one filename
and one class name — the plan is not bijective with the TagGroup keys. -/
theorem c1_counterexample :
    ("Users" : String) ≠ "users" ∧
    (emissionPlan ⟨some [("/a", [("get", ⟨none, .arr ["Users"], none, none, false⟩)]),
                        ("/b", [("get", ⟨none, .arr ["users"], none, none, false⟩)])]⟩).map
        (fun e => e.1) = ["Users", "users"] ∧
    emissionFileName "Users" = emissionFileName "users" ∧
    barrelClassName "Users" = barrelClassName "users" :=
  ⟨by decide, by decide, by decide, by decide⟩

theorem c1_emission_plan_amended_witness :
    ("users-api.js" : String) = emissionFileName "users" ∧
    (some "Users" : Option String) = moduleClassName "users" :=
  c1_emission_plan_amended.2.1
    ⟨some [("/a", [("get", ⟨none, .arr ["users"], none, none, false⟩)])]⟩
    "users" "users-api.js" (some "Users") (by decide)

theorem dedupFirstAux_sublist (l : List String) :
    ∀ seen, (dedupFirstAux seen l).Sublist l := by
  induction l with
  | nil => intro seen; simp [dedupFirstAux]
  | cons x xs ih =>
    intro seen
    rw [dedupFirstAux]
    by_cases hx : x ∈ seen
    · simp only [hx, if_true]
      exact (ih seen).trans (List.sublist_cons_self x xs)
    · simp only [hx, if_false]
      exact List.Sublist.cons₂ x (ih (x :: seen))

theorem dedupFirstAux_mem (l : List String) :
    ∀ seen x, x ∈ dedupFirstAux seen l ↔ (x ∈ l ∧ x ∉ seen) := by
  induction l with
  | nil => intro seen x; simp [dedupFirstAux]
  | cons y ys ih =>
    intro seen x
    rw [dedupFirstAux]
    by_cases hy : y ∈ seen
    · simp only [hy, if_true]
      rw [ih]
      constructor
      · rintro ⟨h1, h2⟩
        exact ⟨List.mem_cons_of_mem _ h1, h2⟩
      · rintro ⟨h1, h2⟩
        rcases List.mem_cons.mp h1 with h | h
        · subst h; exact absurd hy h2
        · exact ⟨h, h2⟩
    · simp only [hy, if_false, List.mem_cons]
      rw [ih]
      constructor
      · rintro (h | ⟨h1, h2⟩)
        · subst h; exact ⟨Or.inl rfl, hy⟩
        · refine ⟨Or.inr h1, fun hseen => h2 (List.mem_cons_of_mem _ hseen)⟩
      · rintro ⟨h1 | h1, h2⟩
        · exact Or.inl h1
        · by_cases hxy : x = y
          · exact Or.inl hxy
          · right
            refine ⟨h1, fun hx => ?_⟩
            rcases List.mem_cons.mp hx with h | h
            exacts [hxy h, h2 h]

theorem dedupFirstAux_nodup (l : List String) :
    ∀ seen, (dedupFirstAux seen l).Nodup := by
  induction l with
  | nil => intro seen; simp [dedupFirstAux]
  | cons y ys ih =>
    intro seen
    rw [dedupFirstAux]
    by_cases hy : y ∈ seen
    · simp only [hy, if_true]
      exact ih seen
    · simp only [hy, if_false]
      rw [List.nodup_cons]
      refine ⟨fun hmem => ?_, ih (y :: seen)⟩
      exact ((dedupFirstAux_mem ys (y :: seen) y).mp hmem).2 (List.mem_cons_self y seen)

theorem dedupFirstAux_congr (l : List String) :
    ∀ s1 s2, (∀ z, z ∈ s1 ↔ z ∈ s2) → dedupFirstAux s1 l = dedupFirstAux s2 l := by
  induction l with
  | nil => intro s1 s2 _; rfl
  | cons y ys ih =>
    intro s1 s2 h
    rw [dedupFirstAux, dedupFirstAux]
    by_cases hy : y ∈ s1
    · simp only [hy, (h y).mp hy, if_true]
      exact ih s1 s2 h
    · have hy2 : y ∉ s2 := fun hx => hy ((h y).mpr hx)
      simp only [hy, hy2, if_false]
      exact congrArg (List.cons y)
        (ih (y :: s1) (y :: s2) (fun z => by simp [List.mem_cons, h z]))

theorem dedupFirstAux_filter (x : String) (l : List String) :
    ∀ seen, dedupFirstAux (x :: seen) l =
      dedupFirstAux seen (l.filter (fun y => y != x)) := by
  induction l with
  | nil => intro seen; rfl
  | cons y ys ih =>
    intro seen
    rw [dedupFirstAux, List.filter_cons]
    by_cases hxy : y = x
    · subst hxy
      simp only [bne_self_eq_false, Bool.false_eq_true, if_false, List.mem_cons,
        true_or, if_true]
      exact ih seen
    · have hbne : (y != x) = true := by simp [hxy]
      simp only [hbne, if_true]
      rw [dedupFirstAux]
      by_cases hy : y ∈ seen
      · have hy1 : y ∈ x :: seen := List.mem_cons_of_mem _ hy
        simp only [hy, hy1, if_true]
        exact ih seen
      · have hy1 : y ∉ x :: seen := by
          intro h
          rcases List.mem_cons.mp h with h | h
          exacts [hxy h, hy h]
        simp only [hy, hy1, if_false]
        refine congrArg (List.cons y) ?_
        rw [dedupFirstAux_congr ys (y :: x :: seen) (x :: y :: seen)
          (fun z => by simp [List.mem_cons]; tauto)]
        exact ih (y :: seen)

theorem dedupFirst_cons (x : String) (xs : List String) :
    dedupFirst (x :: xs) = x :: dedupFirst (xs.filter (fun y => y != x)) := by
  rw [dedupFirst, dedupFirstAux]
  simp only [List.not_mem_nil, if_false]
  rw [dedupFirstAux_filter]
  rfl

theorem mem_collectNames (ps : List Param) (x : String) :
    x ∈ collectNames ps ↔ ∃ p ∈ ps, p.name = some x ∧ x ≠ "" := by
  rw [collectNames, List.mem_filterMap]
  constructor
  · rintro ⟨p, hp, hf⟩
    refine ⟨p, hp, ?_⟩
    rcases hn : p.name with _ | s
    · rw [hn] at hf
      simp at hf
    · rw [hn] at hf
      by_cases hs : s = ""
      · rw [hs] at hf
        simp at hf
      · simp only [hs, if_false] at hf
        injection hf with hf
        subst hf
        exact ⟨rfl, hs⟩
  · rintro ⟨p, hp, hname, hne⟩
    refine ⟨p, hp, ?_⟩
    rw [hname]
    simp [hne]

theorem paramList_nil_of_falsy (ps : List Param)
    (h : ∀ p ∈ ps, p.name = none ∨ p.name = some "") : paramList ps = [] := by
  have hc : collectNames ps = [] := by
    rw [collectNames, List.filterMap_eq_nil_iff]
    intro p hp
    rcases h p hp with hn | hn <;> simp [hn]
  rw [paramList, hc]
  rfl

theorem paramList_cons_ne_nil (p : Param) (ps : List Param) (s : String)
    (hn : p.name = some s) (hs : s ≠ "") : paramList (p :: ps) ≠ [] := by
  have hc : collectNames (p :: ps) = s :: collectNames ps := by
    rw [collectNames, collectNames, List.filterMap_cons, hn]
    simp [hs]
  rw [paramList, hc, dedupFirst_cons]
  simp

/-- C8: `paramList` (the spec's `uniqueParamNames`) drops parameters whose
name is falsy and deduplicates the remaining names keeping the first
occurrence of each, preserving order (the result is duplicate-free, is a
subsequence of the collected names, and contains exactly the truthy names);
and because the emitter applies it separately per location bucket, an
operation with a `page` query parameter and a `page` header parameter gets
one argument in each of its two buckets — deduplication is per location,
not global. -/
theorem c8_param_dedup :
    (∀ ps : List Param, (paramList ps).Nodup) ∧
    (∀ (ps : List Param) (x : String),
        x ∈ paramList ps ↔ ∃ p ∈ ps, p.name = some x ∧ x ≠ "") ∧
    (∀ ps : List Param, (paramList ps).Sublist (collectNames ps)) ∧
    (∀ (x : String) (xs : List String),
        dedupFirst (x :: xs) = x :: dedupFirst (xs.filter (fun y => y != x))) ∧
    opArgs ⟨none, .absent, none,
      some [⟨some "page", some "query"⟩, ⟨some "page", some "header"⟩], false⟩ =
      ["query", "headers"] := by
  refine ⟨?_, ?_, ?_, dedupFirst_cons, by decide⟩
  · intro ps
    exact dedupFirstAux_nodup _ []
  · intro ps x
    rw [paramList, dedupFirst, dedupFirstAux_mem]
    simp only [List.not_mem_nil, not_false_iff, and_true]
    exact mem_collectNames ps x
  · intro ps
    exact dedupFirstAux_sublist _ []

/-- C9: the generated method's argument list is positional and conditional:
an operation with no named path-, query-, or header-located parameter and a
falsy `requestBody` gets zero arguments, and an operation whose parameters
all are named query parameters (at least one), with falsy `requestBody`,
gets exactly the single argument `query`. -/
theorem c9_argument_shape :
    (∀ op : Operation,
        (∀ p ∈ op.parameters.getD [],
            (p.loc = some "path" ∨ p.loc = some "query" ∨ p.loc = some "header") →
            p.name = none ∨ p.name = some "") →
        op.requestBody = false →
        opArgs op = []) ∧
    (∀ (op : Operation) (ps : List Param),
        op.parameters = some ps → ps ≠ [] →
        (∀ p ∈ ps, p.loc = some "query" ∧ p.name ≠ none ∧ p.name ≠ some "") →
        op.requestBody = false →
        opArgs op = ["query"]) := by
  constructor
  · intro op h hbody
    have hnil : ∀ l : String, l = "path" ∨ l = "query" ∨ l = "header" →
        paramList (paramsIn op l) = [] := by
      intro l hl
      apply paramList_nil_of_falsy
      intro p hp
      rw [paramsIn, List.mem_filter] at hp
      have hloc : p.loc = some l := by
        have := hp.2
        simpa using this
      apply h p hp.1
      rcases hl with hl | hl | hl <;> rw [hl] at hloc <;> simp [hloc]
    rw [opArgs]
    rw [hnil "path" (by simp), hnil "query" (by simp), hnil "header" (by simp), hbody]
    simp
  · intro op ps hps hne h hbody
    have hfilter : ∀ l : String, l ≠ "query" → paramsIn op l = [] := by
      intro l hl
      rw [paramsIn, hps]
      simp only [Option.getD_some]
      rw [List.filter_eq_nil_iff]
      intro p hp
      have := (h p hp).1
      simp [this, hl, Ne.symm hl]
    have hq : paramsIn op "query" = ps := by
      rw [paramsIn, hps]
      simp only [Option.getD_some]
      rw [List.filter_eq_self]
      intro p hp
      simp [(h p hp).1]
    rcases hps' : ps with _ | ⟨p0, rest⟩
    · exact absurd hps' hne
    · have hn0 := h p0 (by rw [hps']; exact List.mem_cons_self _ _)
      rcases hname : p0.name with _ | s
      · exact absurd hname hn0.2.1
      · have hs : s ≠ "" := by
          intro h'
          rw [h'] at hname
          exact hn0.2.2 hname
        rw [opArgs]
        rw [hfilter "path" (by decide), hfilter "header" (by decide), hq, hps', hbody]
        have hqne := paramList_cons_ne_nil p0 rest s hname hs
        have hpl : paramList ([] : List Param) = [] := rfl
        simp [hqne, hpl]

theorem c9_argument_shape_witness :
    opArgs ⟨none, .absent, none, none, false⟩ = [] ∧
    opArgs ⟨none, .absent, none, some [⟨some "page", some "query"⟩], false⟩ =
      ["query"] :=
  ⟨c9_argument_shape.1 _ (by decide) rfl,
   c9_argument_shape.2 _ [⟨some "page", some "query"⟩] rfl (by decide) (by decide) rfl⟩

theorem bucketOf_addToTag :
    ∀ (m : List (String × List IndexedOp)) (t t' : String) (e : IndexedOp),
      bucketOf (addToTag m t e) t' =
        bucketOf m t' ++ (if t = t' then [e] else []) := by
  intro m
  induction m with
  | nil =>
    intro t t' e
    rw [addToTag]
    by_cases h : t = t' <;> simp [bucketOf, h]
  | cons kv rest ih =>
    intro t t' e
    obtain ⟨k, v⟩ := kv
    rw [addToTag]
    by_cases hk : k = t
    · simp only [hk, if_true]
      by_cases hk' : t = t'
      · simp [bucketOf, hk']
      · simp [bucketOf, hk']
    · simp only [hk, if_false]
      by_cases hk' : k = t'
      · have ht' : t ≠ t' := fun h => hk (h ▸ hk')
        simp [bucketOf, hk', ht']
      · simp [bucketOf, hk', ih]

theorem bucketOf_foldl_tags (ts : List String) :
    ∀ (m : List (String × List IndexedOp)) (e : IndexedOp) (t : String),
      bucketOf (ts.foldl (fun a x => addToTag a x e) m) t =
        bucketOf m t ++ List.replicate (ts.count t) e := by
  induction ts with
  | nil => intro m e t; simp
  | cons t0 ts ih =>
    intro m e t
    rw [List.foldl_cons, ih, bucketOf_addToTag, List.count_cons, List.append_assoc]
    by_cases h : t0 = t
    · simp [h, List.replicate_succ]
    · simp [h]

theorem bucketOf_addOp (acc : List (String × List IndexedOp)) (pk m : String)
    (op : Operation) (t : String) :
    bucketOf (addOp acc pk m op) t =
      bucketOf acc t ++ List.replicate ((pickTags op).count t) (mkEntry pk m op) := by
  rw [addOp]
  exact bucketOf_foldl_tags _ _ _ _

theorem bucketOf_foldl_generic {α : Type} (xs : List α)
    (step : List (String × List IndexedOp) → α → List (String × List IndexedOp))
    (g : α → List IndexedOp) (t : String)
    (hstep : ∀ acc x, bucketOf (step acc x) t = bucketOf acc t ++ g x) :
    ∀ acc, bucketOf (xs.foldl step acc) t = bucketOf acc t ++ xs.flatMap g := by
  induction xs with
  | nil => intro acc; simp
  | cons x xs ih =>
    intro acc
    rw [List.foldl_cons, ih, hstep, List.flatMap_cons, List.append_assoc]

theorem filter_map_flatMap {β γ δ : Type} (l : List β) (P : β → Bool)
    (h : β → γ) (F : γ → List δ) :
    ((l.filter P).map h).flatMap F = l.flatMap (fun x => if P x then F (h x) else []) := by
  induction l with
  | nil => rfl
  | cons x xs ih =>
    rw [List.filter_cons]
    by_cases hp : P x
    · simp only [hp, if_true, List.map_cons, List.flatMap_cons, ih]
    · simp only [hp, Bool.false_eq_true, if_false, List.flatMap_cons, ih]
      simp

/-- The operation indexer, characterized: the bucket of tag `t` holds, in
traversal order, one copy of the indexed record of each visited operation
per occurrence of `t` in that operation's tag list. -/
theorem bucketOf_groupOperations (doc : OpenApiDoc) (t : String) :
    bucketOf (groupOperationsByTag doc) t =
      (opsOfDoc doc).flatMap
        (fun x => List.replicate ((pickTags x.2.2).count t) (mkEntry x.1 x.2.1 x.2.2)) := by
  have hinner : ∀ (pk : String) (acc : List (String × List IndexedOp))
      (mo : String × Operation),
      bucketOf (if mo.1 ∈ httpMethods then addOp acc pk mo.1 mo.2 else acc) t =
        bucketOf acc t ++ (if mo.1 ∈ httpMethods then
          List.replicate ((pickTags mo.2).count t) (mkEntry pk mo.1 mo.2) else []) := by
    intro pk acc mo
    by_cases hm : mo.1 ∈ httpMethods
    · simp only [hm, if_true]
      exact bucketOf_addOp acc pk mo.1 mo.2 t
    · simp [hm]
  have houter : ∀ (acc : List (String × List IndexedOp))
      (pi : String × List (String × Operation)),
      bucketOf (pi.2.foldl
          (fun acc2 mo => if mo.1 ∈ httpMethods then addOp acc2 pi.1 mo.1 mo.2 else acc2)
          acc) t =
        bucketOf acc t ++ pi.2.flatMap (fun mo => if mo.1 ∈ httpMethods then
          List.replicate ((pickTags mo.2).count t) (mkEntry pi.1 mo.1 mo.2) else []) := by
    intro acc pi
    exact bucketOf_foldl_generic pi.2 _ _ t (hinner pi.1) acc
  rw [groupOperationsByTag]
  rw [bucketOf_foldl_generic (doc.paths.getD []) _ _ t houter []]
  rw [opsOfDoc, List.flatMap_assoc]
  simp only [bucketOf, List.nil_append]
  refine congrArg (List.flatMap (doc.paths.getD [])) ?_
  funext pi
  rw [filter_map_flatMap]
  refine congrArg (List.flatMap pi.2) ?_
  funext mo
  by_cases hm : mo.1 ∈ httpMethods
  · simp [hm]
  · simp [hm]

theorem count_flatMap_replicate (xs : List (String × String × Operation))
    (cnt : String × String × Operation → Nat) (y : String × String × Operation) :
    ((xs.flatMap (fun x => List.replicate (cnt x) (mkEntry x.1 x.2.1 x.2.2))).count
        (mkEntry y.1 y.2.1 y.2.2)) = xs.count y * cnt y := by
  induction xs with
  | nil => simp
  | cons x xs ih =>
    rw [List.flatMap_cons, List.count_append, ih, List.count_cons,
      List.count_replicate]
    by_cases hxy : x = y
    · subst hxy
      simp
      ring
    · have hne : mkEntry x.1 x.2.1 x.2.2 ≠ mkEntry y.1 y.2.1 y.2.2 := by
        intro h
        apply hxy
        rw [mkEntry, mkEntry, IndexedOp.mk.injEq] at h
        rw [Prod.ext_iff, Prod.ext_iff]
        exact ⟨h.2.2.1, h.2.1, h.1⟩
      have h1 : (mkEntry x.1 x.2.1 x.2.2 == mkEntry y.1 y.2.1 y.2.2) = false := by
        simp [hne]
      have h2 : (x == y) = false := by simp [hxy]
      simp [h1, h2]

theorem pickTags_ne_nil (op : Operation) : pickTags op ≠ [] := by
  rw [pickTags]
  rcases h : op.tags with _ | _ | ts
  · simp
  · simp
  · rcases ts with _ | ⟨t0, ts⟩ <;> simp

/-- C6: every operation visited once by the indexer contributes to the
bucket of each tag `t` it declares exactly as many identical records as `t`
occurs in its tag list — so for distinct tags such as `["a", "b"]`, exactly
one record per bucket — and every such record carries the one function name
computed for the `(pathKey, method)` pair before the tag fan-out. -/
theorem c6_fanout (doc : OpenApiDoc) (pk m : String) (op : Operation)
    (huniq : (opsOfDoc doc).count (pk, m, op) = 1) :
    ∀ t ∈ pickTags op,
      ((bucketOf (groupOperationsByTag doc) t).count (mkEntry pk m op) =
        (pickTags op).count t) ∧
      (mkEntry pk m op).fnName = opFunctionName op pk m := by
  intro t _
  refine ⟨?_, rfl⟩
  rw [bucketOf_groupOperations doc t]
  have h := count_flatMap_replicate (opsOfDoc doc)
    (fun x => (pickTags x.2.2).count t) (pk, m, op)
  simp only at h
  rw [h, huniq, one_mul]

theorem c6_fanout_witness :
    (bucketOf (groupOperationsByTag ⟨some [("/a", [("get",
        ⟨none, .arr ["a", "b"], none, none, false⟩)])]⟩) "b").count
      (mkEntry "/a" "get" ⟨none, .arr ["a", "b"], none, none, false⟩) =
      (pickTags ⟨none, .arr ["a", "b"], none, none, false⟩).count "b" :=
  (c6_fanout _ "/a" "get" _ (by decide) "b" (by decide)).1

/-- C7: every operation reachable under a recognized method key appears in
at least one bucket of the grouping, and an operation whose tags field is
absent, not an array, or the empty array lands in the bucket of
`"default"`. -/
theorem c7_grouping_complete (doc : OpenApiDoc) (pk m : String) (op : Operation)
    (hmem : (pk, m, op) ∈ opsOfDoc doc) :
    (∃ t, mkEntry pk m op ∈ bucketOf (groupOperationsByTag doc) t) ∧
    ((op.tags = .absent ∨ op.tags = .notArray ∨ op.tags = .arr []) →
      mkEntry pk m op ∈ bucketOf (groupOperationsByTag doc) "default") := by
  have hbucket : ∀ t, t ∈ pickTags op →
      mkEntry pk m op ∈ bucketOf (groupOperationsByTag doc) t := by
    intro t ht
    rw [bucketOf_groupOperations doc t, List.mem_flatMap]
    refine ⟨(pk, m, op), hmem, ?_⟩
    rw [List.mem_replicate]
    refine ⟨fun hzero => ?_, rfl⟩
    rw [List.count_eq_zero] at hzero
    exact hzero ht
  constructor
  · rcases hpt : pickTags op with _ | ⟨t0, ts⟩
    · exact absurd hpt (pickTags_ne_nil op)
    · exact ⟨t0, hbucket t0 (by rw [hpt]; exact List.mem_cons_self _ _)⟩
  · intro htags
    apply hbucket
    rw [pickTags]
    rcases htags with h | h | h <;> rw [h] <;> simp

theorem c7_grouping_complete_witness :
    mkEntry "/a" "get" ⟨none, .absent, none, none, false⟩ ∈
      bucketOf (groupOperationsByTag ⟨some [("/a", [("get",
        ⟨none, .absent, none, none, false⟩)])]⟩) "default" :=
  (c7_grouping_complete _ "/a" "get" _ (by decide)).2 (Or.inl rfl)
